import Mathlib

/-!
Verification of the spliter crate: an adapter turning a splittable iterator
(a Spliterator) into a parallel iterator by adaptively bridging between
pulling items and splitting the remaining work in half.

The embedding is shallow: Rust trait objects become Lean structures of
functions, mutation becomes explicit state passing, and the recursive
bridge loop is modelled with an explicit fuel parameter (the Rust code may
diverge on ill-behaved sequences, so the Lean model returns none when fuel
runs out).  Scheduler behaviour (thread counts and the migrated flags of
join_context) is modelled by an oracle indexed by the fork path, so every
theorem quantifies over all scheduler behaviours.
-/

/-- The Spliterator trait from src/lib.rs: an iterator (next) that can also
try to split itself in two.  In Rust, split takes the receiver by mutable
reference and returns an optional new half; here split returns the pair
(retained receiver, new half) on success and none on failure (both
implementations in the repository leave the receiver untouched on a failed
split). -/
structure Spliter (S : Type) (I : Type) where
  next : S → Option (I × S)
  split : S → Option (S × S)

/-- Run an iterator sequentially until exhaustion, collecting the produced
items; fuel-bounded, returning none when the iterator does not exhaust
within the given number of steps. -/
def seqListF (nx : S → Option (I × S)) : Nat → S → Option (List I)
  | 0, s =>
    match nx s with
    | none => some []
    | some _ => none
  | f + 1, s =>
    match nx s with
    | none => some []
    | some (x, s1) => (seqListF nx f s1).map (fun l => x :: l)

/-- The sequence state s produces exactly the item list l when consumed
sequentially to exhaustion. -/
def Produces (nx : S → Option (I × S)) (s : S) (l : List I) : Prop :=
  ∃ f, seqListF nx f s = some l

theorem seqListF_mono {nx : S → Option (I × S)} :
    ∀ {f : Nat} {s : S} {l : List I}, seqListF nx f s = some l →
      seqListF nx (f + 1) s = some l := by
  intro f
  induction f with
  | zero =>
    intro s l h
    simp only [seqListF] at h ⊢
    cases hn : nx s with
    | none => rw [hn] at h; simpa using h
    | some p => rw [hn] at h; simp at h
  | succ f ih =>
    intro s l h
    simp only [seqListF] at h ⊢
    cases hn : nx s with
    | none => rw [hn] at h; simpa using h
    | some p =>
      rw [hn] at h
      obtain ⟨x, s1⟩ := p
      simp only [Option.map_eq_some'] at h
      obtain ⟨l1, hl1, rfl⟩ := h
      simp only [Option.map_eq_some']
      exact ⟨l1, ih hl1, rfl⟩

theorem seqListF_mono_le {nx : S → Option (I × S)} {f g : Nat} {s : S} {l : List I}
    (hfg : f ≤ g) (h : seqListF nx f s = some l) : seqListF nx g s = some l := by
  induction g with
  | zero => cases Nat.le_zero.mp hfg; exact h
  | succ g ih =>
    rcases Nat.lt_or_ge f (g + 1) with hlt | hge
    · exact seqListF_mono (ih (Nat.lt_succ_iff.mp hlt))
    · cases Nat.le_antisymm hfg hge; exact h

theorem Produces_unique {nx : S → Option (I × S)} {s : S} {l1 l2 : List I}
    (h1 : Produces nx s l1) (h2 : Produces nx s l2) : l1 = l2 := by
  obtain ⟨f1, h1⟩ := h1
  obtain ⟨f2, h2⟩ := h2
  have e1 := seqListF_mono_le (Nat.le_max_left f1 f2) h1
  have e2 := seqListF_mono_le (Nat.le_max_right f1 f2) h2
  rw [e1] at e2
  exact Option.some_inj.mp e2

theorem Produces_of_next_none {nx : S → Option (I × S)} {s : S} {l : List I}
    (hn : nx s = none) (h : Produces nx s l) : l = [] := by
  obtain ⟨f, hf⟩ := h
  cases f <;> simp only [seqListF, hn] at hf <;> exact (Option.some_inj.mp hf).symm

theorem Produces_of_next_some {nx : S → Option (I × S)} {s s1 : S} {x : I} {l : List I}
    (hn : nx s = some (x, s1)) (h : Produces nx s l) :
    ∃ l1, l = x :: l1 ∧ Produces nx s1 l1 := by
  obtain ⟨f, hf⟩ := h
  cases f with
  | zero => simp [seqListF, hn] at hf
  | succ f =>
    simp only [seqListF, hn, Option.map_eq_some'] at hf
    obtain ⟨l1, hl1, rfl⟩ := hf
    exact ⟨l1, rfl, f, hl1⟩

theorem Produces_ne_nil {nx : S → Option (I × S)} {s s1 : S} {x : I} {l : List I}
    (hn : nx s = some (x, s1)) (h : Produces nx s l) : l ≠ [] := by
  obtain ⟨l1, rfl, -⟩ := Produces_of_next_some hn h
  simp

/-- The ParSpliter struct: the underlying Spliterator state together with
the number of pieces that we would still like to split into (the split
budget). -/
structure ParSpliter (S : Type) where
  iter : S
  splits : Nat
deriving DecidableEq

/-- ParSpliter::new: wraps an iterator, with the split budget initialized
to current_num_threads() (passed here as the numThreads argument). -/
def ParSpliter.new (numThreads : Nat) (iter : S) : ParSpliter S :=
  { iter := iter, splits := numThreads }

/-- ParSpliter::split: no split when the budget is exhausted; otherwise
delegate to the Spliterator, halve the budget, and give the same halved
budget to both the retained half and the new half. -/
def ParSpliter.split (sp : Spliter S I) (p : ParSpliter S) :
    Option (ParSpliter S × ParSpliter S) :=
  if p.splits = 0 then none
  else
    match sp.split p.iter with
    | some (ret, nw) =>
      some ({ iter := ret, splits := p.splits / 2 }, { iter := nw, splits := p.splits / 2 })
    | none => none

/-- The rayon consumer protocol, abstractly: an UnindexedConsumer C that can
split off a left consumer and expose a reducer, and its Folder F that
consumes items one at a time, can report fullness, and is finalized by
complete into a result R. -/
structure ConsumerOps (I : Type) (C : Type) (F : Type) (R : Type) where
  splitOffLeft : C → C
  toReducer : C → R → R → R
  intoFolder : C → F
  consume : F → I → F
  full : F → Bool
  complete : F → R

/-- The scheduler oracle: for every fork path (the list of join_context
branch choices taken from the root, most recent first), the thread count
reported by current_num_threads and the migrated flags passed by
join_context to its left and right closures. -/
structure Sched where
  threads : List Bool → Nat
  stolenL : List Bool → Bool
  stolenR : List Bool → Bool

/-- Folder::consume_iter (rayon's default implementation, used by the
zero-budget fast path of bridge): repeatedly pull an item, consume it, and
stop as soon as the folder reports full after a consume or the iterator is
exhausted.  Fuel-bounded. -/
def consumeIterF (sp : Spliter S I) (ops : ConsumerOps I C F R) :
    Nat → F → S → Option F
  | 0, _, _ => none
  | f + 1, m, s =>
    match sp.next s with
    | none => some m
    | some (x, s1) =>
      let m1 := ops.consume m x
      if ops.full m1 then some m1 else consumeIterF sp ops f m1 s1

mutual

/-- ParSpliter::bridge.  On entry, if the job was stolen, reset the split
budget to the current thread count; derive a folder from the consumer; if
the budget is zero take the consume_iter fast path, otherwise enter the
main loop. -/
def bridgeAux (sp : Spliter S I) (ops : ConsumerOps I C F R) (sch : Sched) :
    Nat → List Bool → Bool → ParSpliter S → C → Option R
  | 0, _, _, _, _ => none
  | fuel + 1, path, stolen, p, c =>
    let p1 : ParSpliter S := if stolen then { p with splits := sch.threads path } else p
    let folder := ops.intoFolder (ops.splitOffLeft c)
    if p1.splits = 0 then (consumeIterF sp ops fuel folder p1.iter).map ops.complete
    else bridgeLoop sp ops sch fuel path p1 folder c
termination_by structural fuel => fuel

/-- The main loop of ParSpliter::bridge: while the folder is not full, try
to split (forking both halves through join_context and returning the
reduced results), otherwise consume one item and loop; on exhaustion,
complete the folder. -/
def bridgeLoop (sp : Spliter S I) (ops : ConsumerOps I C F R) (sch : Sched) :
    Nat → List Bool → ParSpliter S → F → C → Option R
  | 0, _, _, _, _ => none
  | fuel + 1, path, p, folder, c =>
    if ops.full folder then some (ops.complete folder)
    else
      match ParSpliter.split sp p with
      | some (pL, pR) =>
        match bridgeAux sp ops sch fuel (false :: path) (sch.stolenL path) pL
                (ops.splitOffLeft c),
              bridgeAux sp ops sch fuel (true :: path) (sch.stolenR path) pR c with
        | some left, some right =>
          some (ops.toReducer c (ops.complete folder) (ops.toReducer c left right))
        | _, _ => none
      | none =>
        match sp.next p.iter with
        | some (x, it) => bridgeLoop sp ops sch fuel path { p with iter := it } (ops.consume folder x) c
        | none => some (ops.complete folder)

end

/-- ParallelIterator::drive_unindexed for ParSpliter, composed with
par_split: wrap the iterator with ParSpliter::new and call bridge with
stolen = false. -/
def driveUnindexed (sp : Spliter S I) (ops : ConsumerOps I C F R) (sch : Sched)
    (numThreads : Nat) (fuel : Nat) (it : S) (c : C) : Option R :=
  bridgeAux sp ops sch fuel [] false (ParSpliter.new numThreads it) c

theorem bridgeAux_succ (sp : Spliter S I) (ops : ConsumerOps I C F R) (sch : Sched)
    (fuel : Nat) (path : List Bool) (stolen : Bool) (p : ParSpliter S) (c : C) :
    bridgeAux sp ops sch (fuel + 1) path stolen p c =
      (let p1 : ParSpliter S := if stolen then { p with splits := sch.threads path } else p
       let folder := ops.intoFolder (ops.splitOffLeft c)
       if p1.splits = 0 then (consumeIterF sp ops fuel folder p1.iter).map ops.complete
       else bridgeLoop sp ops sch fuel path p1 folder c) := by
  rw [bridgeAux]

theorem bridgeLoop_succ (sp : Spliter S I) (ops : ConsumerOps I C F R) (sch : Sched)
    (fuel : Nat) (path : List Bool) (p : ParSpliter S) (folder : F) (c : C) :
    bridgeLoop sp ops sch (fuel + 1) path p folder c =
      (if ops.full folder then some (ops.complete folder)
       else
         match ParSpliter.split sp p with
         | some (pL, pR) =>
           match bridgeAux sp ops sch fuel (false :: path) (sch.stolenL path) pL
                   (ops.splitOffLeft c),
                 bridgeAux sp ops sch fuel (true :: path) (sch.stolenR path) pR c with
           | some left, some right =>
             some (ops.toReducer c (ops.complete folder) (ops.toReducer c left right))
           | _, _ => none
         | none =>
           match sp.next p.iter with
           | some (x, it) =>
             bridgeLoop sp ops sch fuel path { p with iter := it } (ops.consume folder x) c
           | none => some (ops.complete folder)) := by
  rw [bridgeLoop]

theorem bridgeAux_budget_zero (sp : Spliter S I) (ops : ConsumerOps I C F R) (sch : Sched)
    (fuel : Nat) (path : List Bool) (stolen : Bool) (p : ParSpliter S) (c : C)
    (h : (if stolen then sch.threads path else p.splits) = 0) :
    bridgeAux sp ops sch (fuel + 1) path stolen p c =
      (consumeIterF sp ops fuel (ops.intoFolder (ops.splitOffLeft c)) p.iter).map ops.complete := by
  rw [bridgeAux_succ]
  cases stolen <;> simp_all

theorem bridgeAux_budget_pos (sp : Spliter S I) (ops : ConsumerOps I C F R) (sch : Sched)
    (fuel : Nat) (path : List Bool) (stolen : Bool) (p : ParSpliter S) (c : C)
    (h : ¬ (if stolen then sch.threads path else p.splits) = 0) :
    bridgeAux sp ops sch (fuel + 1) path stolen p c =
      bridgeLoop sp ops sch fuel path
        (if stolen then { p with splits := sch.threads path } else p)
        (ops.intoFolder (ops.splitOffLeft c)) c := by
  rw [bridgeAux_succ]
  cases stolen <;> simp_all

theorem bridgeLoop_full (sp : Spliter S I) (ops : ConsumerOps I C F R) (sch : Sched)
    (fuel : Nat) (path : List Bool) (p : ParSpliter S) (folder : F) (c : C)
    (h : ops.full folder = true) :
    bridgeLoop sp ops sch (fuel + 1) path p folder c = some (ops.complete folder) := by
  rw [bridgeLoop_succ]
  simp [h]

theorem bridgeLoop_split (sp : Spliter S I) (ops : ConsumerOps I C F R) (sch : Sched)
    (fuel : Nat) (path : List Bool) (p pL pR : ParSpliter S) (folder : F) (c : C)
    (hfull : ops.full folder = false) (hs : ParSpliter.split sp p = some (pL, pR)) :
    bridgeLoop sp ops sch (fuel + 1) path p folder c =
      (match bridgeAux sp ops sch fuel (false :: path) (sch.stolenL path) pL
               (ops.splitOffLeft c),
             bridgeAux sp ops sch fuel (true :: path) (sch.stolenR path) pR c with
       | some left, some right =>
         some (ops.toReducer c (ops.complete folder) (ops.toReducer c left right))
       | _, _ => none) := by
  rw [bridgeLoop_succ]
  simp [hfull, hs]

theorem bridgeLoop_consume (sp : Spliter S I) (ops : ConsumerOps I C F R) (sch : Sched)
    (fuel : Nat) (path : List Bool) (p : ParSpliter S) (folder : F) (c : C) (x : I) (it : S)
    (hfull : ops.full folder = false) (hs : ParSpliter.split sp p = none)
    (hn : sp.next p.iter = some (x, it)) :
    bridgeLoop sp ops sch (fuel + 1) path p folder c =
      bridgeLoop sp ops sch fuel path { p with iter := it } (ops.consume folder x) c := by
  rw [bridgeLoop_succ]
  simp [hfull, hs, hn]

theorem bridgeLoop_exhaust (sp : Spliter S I) (ops : ConsumerOps I C F R) (sch : Sched)
    (fuel : Nat) (path : List Bool) (p : ParSpliter S) (folder : F) (c : C)
    (hfull : ops.full folder = false) (hs : ParSpliter.split sp p = none)
    (hn : sp.next p.iter = none) :
    bridgeLoop sp ops sch (fuel + 1) path p folder c = some (ops.complete folder) := by
  rw [bridgeLoop_succ]
  simp [hfull, hs, hn]

theorem consumeIterF_succ (sp : Spliter S I) (ops : ConsumerOps I C F R)
    (f : Nat) (m : F) (s : S) :
    consumeIterF sp ops (f + 1) m s =
      (match sp.next s with
       | none => some m
       | some (x, s1) =>
         if ops.full (ops.consume m x) then some (ops.consume m x)
         else consumeIterF sp ops f (ops.consume m x) s1) := rfl

theorem consumeIterF_mono (sp : Spliter S I) (ops : ConsumerOps I C F R) :
    ∀ {f : Nat} {m : F} {s : S} {r : F}, consumeIterF sp ops f m s = some r →
      consumeIterF sp ops (f + 1) m s = some r := by
  intro f
  induction f with
  | zero => intro m s r h; simp [consumeIterF] at h
  | succ f ih =>
    intro m s r h
    rw [consumeIterF_succ] at h
    rw [consumeIterF_succ]
    cases hn : sp.next s with
    | none => rw [hn] at h; exact h
    | some q =>
      obtain ⟨x, s1⟩ := q
      rw [hn] at h
      simp only at h ⊢
      by_cases hf : ops.full (ops.consume m x) <;> simp only [hf, if_true, if_false] at h ⊢
      · exact h
      · exact ih h

theorem consumeIterF_mono_le (sp : Spliter S I) (ops : ConsumerOps I C F R)
    {f g : Nat} {m : F} {s : S} {r : F} (hfg : f ≤ g)
    (h : consumeIterF sp ops f m s = some r) : consumeIterF sp ops g m s = some r := by
  induction g with
  | zero => cases Nat.le_zero.mp hfg; exact h
  | succ g ih =>
    rcases Nat.lt_or_ge f (g + 1) with hlt | hge
    · exact consumeIterF_mono sp ops (ih (Nat.lt_succ_iff.mp hlt))
    · cases Nat.le_antisymm hfg hge; exact h

theorem bridge_mono (sp : Spliter S I) (ops : ConsumerOps I C F R) (sch : Sched) :
    ∀ fuel : Nat,
      (∀ path stolen p c r, bridgeAux sp ops sch fuel path stolen p c = some r →
        bridgeAux sp ops sch (fuel + 1) path stolen p c = some r) ∧
      (∀ path p folder c r, bridgeLoop sp ops sch fuel path p folder c = some r →
        bridgeLoop sp ops sch (fuel + 1) path p folder c = some r) := by
  intro fuel
  induction fuel with
  | zero =>
    constructor
    · intro path stolen p c r h; simp [bridgeAux] at h
    · intro path p folder c r h; simp [bridgeLoop] at h
  | succ fuel ih =>
    obtain ⟨ihA, ihL⟩ := ih
    constructor
    · intro path stolen p c r h
      by_cases hz : (if stolen then sch.threads path else p.splits) = 0
      · rw [bridgeAux_budget_zero sp ops sch fuel path stolen p c hz] at h
        rw [bridgeAux_budget_zero sp ops sch (fuel + 1) path stolen p c hz]
        simp only [Option.map_eq_some'] at h ⊢
        obtain ⟨m, hm, rfl⟩ := h
        exact ⟨m, consumeIterF_mono sp ops hm, rfl⟩
      · rw [bridgeAux_budget_pos sp ops sch fuel path stolen p c hz] at h
        rw [bridgeAux_budget_pos sp ops sch (fuel + 1) path stolen p c hz]
        exact ihL _ _ _ _ _ h
    · intro path p folder c r h
      by_cases hfull : ops.full folder
      · rw [bridgeLoop_full sp ops sch fuel path p folder c hfull] at h
        rw [bridgeLoop_full sp ops sch (fuel + 1) path p folder c hfull]
        exact h
      · rw [Bool.not_eq_true] at hfull
        cases hs : ParSpliter.split sp p with
        | some q =>
          obtain ⟨pL, pR⟩ := q
          rw [bridgeLoop_split sp ops sch fuel path p pL pR folder c hfull hs] at h
          rw [bridgeLoop_split sp ops sch (fuel + 1) path p pL pR folder c hfull hs]
          cases hL : bridgeAux sp ops sch fuel (false :: path) (sch.stolenL path) pL
              (ops.splitOffLeft c) with
          | none => rw [hL] at h; simp at h
          | some left =>
            cases hR : bridgeAux sp ops sch fuel (true :: path) (sch.stolenR path) pR c with
            | none => rw [hL, hR] at h; simp at h
            | some right =>
              rw [hL, hR] at h
              rw [ihA _ _ _ _ _ hL, ihA _ _ _ _ _ hR]
              exact h
        | none =>
          cases hn : sp.next p.iter with
          | some q =>
            obtain ⟨x, it⟩ := q
            rw [bridgeLoop_consume sp ops sch fuel path p folder c x it hfull hs hn] at h
            rw [bridgeLoop_consume sp ops sch (fuel + 1) path p folder c x it hfull hs hn]
            exact ihL _ _ _ _ _ h
          | none =>
            rw [bridgeLoop_exhaust sp ops sch fuel path p folder c hfull hs hn] at h
            rw [bridgeLoop_exhaust sp ops sch (fuel + 1) path p folder c hfull hs hn]
            exact h

theorem bridgeAux_mono_le (sp : Spliter S I) (ops : ConsumerOps I C F R) (sch : Sched)
    {f g : Nat} {path : List Bool} {stolen : Bool} {p : ParSpliter S} {c : C} {r : R}
    (hfg : f ≤ g) (h : bridgeAux sp ops sch f path stolen p c = some r) :
    bridgeAux sp ops sch g path stolen p c = some r := by
  induction g with
  | zero => cases Nat.le_zero.mp hfg; exact h
  | succ g ih =>
    rcases Nat.lt_or_ge f (g + 1) with hlt | hge
    · exact (bridge_mono sp ops sch g).1 _ _ _ _ _ (ih (Nat.lt_succ_iff.mp hlt))
    · cases Nat.le_antisymm hfg hge; exact h

theorem bridgeLoop_mono_le (sp : Spliter S I) (ops : ConsumerOps I C F R) (sch : Sched)
    {f g : Nat} {path : List Bool} {p : ParSpliter S} {folder : F} {c : C} {r : R}
    (hfg : f ≤ g) (h : bridgeLoop sp ops sch f path p folder c = some r) :
    bridgeLoop sp ops sch g path p folder c = some r := by
  induction g with
  | zero => cases Nat.le_zero.mp hfg; exact h
  | succ g ih =>
    rcases Nat.lt_or_ge f (g + 1) with hlt | hge
    · exact (bridge_mono sp ops sch g).2 _ _ _ _ _ (ih (Nat.lt_succ_iff.mp hlt))
    · cases Nat.le_antisymm hfg hge; exact h

theorem Produces_nil_next_none {nx : S → Option (I × S)} {s : S}
    (h : Produces nx s []) : nx s = none := by
  obtain ⟨f, hf⟩ := h
  cases hn : nx s with
  | none => rfl
  | some q =>
    obtain ⟨x, s1⟩ := q
    cases f <;> simp [seqListF, hn] at hf

theorem Produces_cons {nx : S → Option (I × S)} {s : S} {x : I} {l1 : List I}
    (h : Produces nx s (x :: l1)) :
    ∃ s1, nx s = some (x, s1) ∧ Produces nx s1 l1 := by
  obtain ⟨f, hf⟩ := h
  cases f with
  | zero =>
    cases hn : nx s with
    | none => simp [seqListF, hn] at hf
    | some q => simp [seqListF, hn] at hf
  | succ f =>
    cases hn : nx s with
    | none => simp [seqListF, hn] at hf
    | some q =>
      obtain ⟨y, s1⟩ := q
      simp only [seqListF, hn, Option.map_eq_some'] at hf
      obtain ⟨l2, hl2, he⟩ := hf
      injection he with h1 h2
      subst h1; subst h2
      exact ⟨s1, rfl, f, hl2⟩

/-- The work-conservation invariant from the spec, for a whole Spliterator
type: every successful split partitions the remaining items, i.e. the two
halves produce nonempty sub-multisets whose union is the multiset the
undivided sequence would have produced. -/
def Partitions (sp : Spliter S I) : Prop :=
  ∀ s a b l, sp.split s = some (a, b) → Produces sp.next s l →
    ∃ la lb, Produces sp.next a la ∧ Produces sp.next b lb ∧
      la ≠ [] ∧ lb ≠ [] ∧ (la : Multiset I) + (lb : Multiset I) = (l : Multiset I)

/-- A consumer that aggregates the image of every delivered item under φ
into a commutative monoid: the folder accumulates with +, reduction is +,
the consumer description is trivial and never reports full.  Counting
(φ = 1) and collecting into a multiset (φ = singleton) are instances. -/
def sumOps (M : Type) [AddCommMonoid M] (φ : I → M) : ConsumerOps I Unit M M where
  splitOffLeft := fun c => c
  toReducer := fun _ x y => x + y
  intoFolder := fun _ => 0
  consume := fun m x => m + φ x
  full := fun _ => false
  complete := fun m => m

theorem listSum_of_multiset_union {M : Type} [AddCommMonoid M] (φ : I → M)
    {la lb l : List I} (h : (la : Multiset I) + (lb : Multiset I) = (l : Multiset I)) :
    (la.map φ).sum + (lb.map φ).sum = (l.map φ).sum := by
  have h2 := congrArg (fun mm : Multiset I => (Multiset.map φ mm).sum) h
  simpa using h2

theorem length_of_multiset_union {la lb l : List I}
    (h : (la : Multiset I) + (lb : Multiset I) = (l : Multiset I)) :
    la.length + lb.length = l.length := by
  have h2 := congrArg Multiset.card h
  simpa using h2

theorem ParSpliter_split_some {sp : Spliter S I} {p q r : ParSpliter S}
    (h : ParSpliter.split sp p = some (q, r)) :
    ¬ p.splits = 0 ∧ sp.split p.iter = some (q.iter, r.iter) ∧
      q.splits = p.splits / 2 ∧ r.splits = p.splits / 2 := by
  unfold ParSpliter.split at h
  by_cases hz : p.splits = 0
  · simp [hz] at h
  · simp only [hz, if_false] at h
    cases hs : sp.split p.iter with
    | none => rw [hs] at h; simp at h
    | some q0 =>
      obtain ⟨a, c⟩ := q0
      rw [hs] at h
      simp only [Option.some_inj, Prod.mk.injEq] at h
      obtain ⟨h1, h2⟩ := h
      subst h1; subst h2
      exact ⟨hz, rfl, rfl, rfl⟩

theorem consumeIterF_sum {M : Type} [AddCommMonoid M] (φ : I → M) (sp : Spliter S I) :
    ∀ (l : List I) (s : S) (m : M), Produces sp.next s l →
      ∃ f, consumeIterF sp (sumOps M φ) f m s = some (m + (l.map φ).sum) := by
  intro l
  induction l with
  | nil =>
    intro s m h
    refine ⟨1, ?_⟩
    rw [consumeIterF_succ, Produces_nil_next_none h]
    simp
  | cons x l1 ih =>
    intro s m h
    obtain ⟨s1, hn, h1⟩ := Produces_cons h
    obtain ⟨f0, hf0⟩ := ih s1 (m + φ x) h1
    refine ⟨f0 + 1, ?_⟩
    rw [consumeIterF_succ, hn]
    have hfull : (sumOps M φ).full ((sumOps M φ).consume m x) = false := rfl
    simp only [hfull, if_false, Bool.false_eq_true]
    show consumeIterF sp (sumOps M φ) f0 (m + φ x) s1 = some (m + (List.map φ (x :: l1)).sum)
    rw [hf0]
    simp [add_assoc]

theorem bridgeLoop_sum {M : Type} [AddCommMonoid M] (φ : I → M) (sp : Spliter S I)
    (sch : Sched) (hP : Partitions sp) :
    ∀ n : Nat, ∀ l : List I, l.length ≤ n → ∀ (s : S) (m : M) (b : Nat) (path : List Bool),
      Produces sp.next s l →
      ∃ f, bridgeLoop sp (sumOps M φ) sch f path ⟨s, b⟩ m () =
        some (m + (l.map φ).sum) := by
  intro n
  induction n with
  | zero =>
    intro l hlen s m b path hprod
    have hl : l = [] := List.length_eq_zero.mp (Nat.le_zero.mp hlen)
    subst hl
    have hn : sp.next s = none := Produces_nil_next_none hprod
    cases hsplit : ParSpliter.split sp (⟨s, b⟩ : ParSpliter S) with
    | some q =>
      obtain ⟨⟨sL, bL⟩, ⟨sR, bR⟩⟩ := q
      obtain ⟨hbz, hs2, hqs, hrs⟩ := ParSpliter_split_some hsplit
      obtain ⟨la, lb, hpa, hpb, hna, hnb, hmul⟩ := hP s sL sR [] hs2 hprod
      have hlen2 := length_of_multiset_union hmul
      simp only [List.length_nil, Nat.add_eq_zero] at hlen2
      exact absurd (List.length_eq_zero.mp hlen2.1) hna
    | none =>
      refine ⟨1, ?_⟩
      rw [bridgeLoop_exhaust sp (sumOps M φ) sch 0 path ⟨s, b⟩ m () rfl hsplit hn]
      simp [sumOps]
  | succ n ih =>
    intro l hlen s m b path hprod
    have aux : ∀ l2 : List I, l2.length ≤ n →
        ∀ (s2 : S) (b2 : Nat) (stolen : Bool) (path2 : List Bool),
        Produces sp.next s2 l2 →
        ∃ f, bridgeAux sp (sumOps M φ) sch f path2 stolen ⟨s2, b2⟩ () =
          some ((l2.map φ).sum) := by
      intro l2 hlen2 s2 b2 stolen path2 hprod2
      by_cases hz : (if stolen then sch.threads path2 else b2) = 0
      · obtain ⟨f0, hf0⟩ := consumeIterF_sum φ sp l2 s2 0 hprod2
        refine ⟨f0 + 1, ?_⟩
        rw [bridgeAux_budget_zero sp (sumOps M φ) sch f0 path2 stolen ⟨s2, b2⟩ () hz]
        show (consumeIterF sp (sumOps M φ) f0 (0 : M) s2).map (sumOps M φ).complete = _
        rw [hf0]
        show some (0 + (l2.map φ).sum) = _
        rw [zero_add]
      · obtain ⟨f0, hf0⟩ :=
          ih l2 hlen2 s2 0 (if stolen then sch.threads path2 else b2) path2 hprod2
        refine ⟨f0 + 1, ?_⟩
        rw [bridgeAux_budget_pos sp (sumOps M φ) sch f0 path2 stolen ⟨s2, b2⟩ () hz]
        have hps : (if stolen then ({ iter := s2, splits := sch.threads path2 } : ParSpliter S)
            else ⟨s2, b2⟩) = ⟨s2, if stolen then sch.threads path2 else b2⟩ := by
          cases stolen <;> rfl
        rw [hps]
        show bridgeLoop sp (sumOps M φ) sch f0 path2 _ (0 : M) () = _
        rw [hf0]
        show some (0 + (l2.map φ).sum) = _
        rw [zero_add]
    cases hsplit : ParSpliter.split sp (⟨s, b⟩ : ParSpliter S) with
    | some q =>
      obtain ⟨⟨sL, bL⟩, ⟨sR, bR⟩⟩ := q
      obtain ⟨hbz, hs2, hqs, hrs⟩ := ParSpliter_split_some hsplit
      obtain ⟨la, lb, hpa, hpb, hna, hnb, hmul⟩ := hP s sL sR l hs2 hprod
      have hlen2 := length_of_multiset_union hmul
      have hla1 : 0 < la.length := List.length_pos.mpr hna
      have hlb1 : 0 < lb.length := List.length_pos.mpr hnb
      have hlena : la.length ≤ n := by omega
      have hlenb : lb.length ≤ n := by omega
      obtain ⟨fL, hfL⟩ := aux la hlena sL bL (sch.stolenL path) (false :: path) hpa
      obtain ⟨fR, hfR⟩ := aux lb hlenb sR bR (sch.stolenR path) (true :: path) hpb
      refine ⟨max fL fR + 1, ?_⟩
      rw [bridgeLoop_split sp (sumOps M φ) sch (max fL fR) path ⟨s, b⟩ ⟨sL, bL⟩ ⟨sR, bR⟩
        m () rfl hsplit]
      have hfL2 := bridgeAux_mono_le sp (sumOps M φ) sch (Nat.le_max_left fL fR) hfL
      have hfR2 := bridgeAux_mono_le sp (sumOps M φ) sch (Nat.le_max_right fL fR) hfR
      rw [hfL2, hfR2]
      show some (m + ((la.map φ).sum + (lb.map φ).sum)) = some (m + (l.map φ).sum)
      rw [listSum_of_multiset_union φ hmul]
    | none =>
      cases hn : sp.next s with
      | some q2 =>
        obtain ⟨x, s1⟩ := q2
        obtain ⟨l1, rfl, hprod1⟩ := Produces_of_next_some hn hprod
        have hlen1 : l1.length ≤ n := by
          simp only [List.length_cons] at hlen
          omega
        obtain ⟨f0, hf0⟩ := ih l1 hlen1 s1 (m + φ x) b path hprod1
        refine ⟨f0 + 1, ?_⟩
        rw [bridgeLoop_consume sp (sumOps M φ) sch f0 path ⟨s, b⟩ m () x s1 rfl hsplit hn]
        show bridgeLoop sp (sumOps M φ) sch f0 path ⟨s1, b⟩ (m + φ x) () = _
        rw [hf0]
        show some (m + φ x + (l1.map φ).sum) = _
        rw [List.map_cons, List.sum_cons, add_assoc]
      | none =>
        have hl : l = [] := Produces_of_next_none hn hprod
        subst hl
        refine ⟨1, ?_⟩
        rw [bridgeLoop_exhaust sp (sumOps M φ) sch 0 path ⟨s, b⟩ m () rfl hsplit hn]
        simp [sumOps]

/-- With a commutative-monoid aggregation consumer, bridge (with any fork
path, stolen flag, split budget, and scheduler oracle) returns the same
aggregate that sequential consumption would produce, given enough fuel. -/
theorem bridgeAux_sum {M : Type} [AddCommMonoid M] (φ : I → M) (sp : Spliter S I)
    (sch : Sched) (hP : Partitions sp) {s : S} {l : List I}
    (hprod : Produces sp.next s l) (b : Nat) (stolen : Bool) (path : List Bool) :
    ∃ f, bridgeAux sp (sumOps M φ) sch f path stolen ⟨s, b⟩ () =
      some ((l.map φ).sum) := by
  by_cases hz : (if stolen then sch.threads path else b) = 0
  · obtain ⟨f0, hf0⟩ := consumeIterF_sum φ sp l s 0 hprod
    refine ⟨f0 + 1, ?_⟩
    rw [bridgeAux_budget_zero sp (sumOps M φ) sch f0 path stolen ⟨s, b⟩ () hz]
    show (consumeIterF sp (sumOps M φ) f0 (0 : M) s).map (sumOps M φ).complete = _
    rw [hf0]
    show some (0 + (l.map φ).sum) = _
    rw [zero_add]
  · obtain ⟨f0, hf0⟩ := bridgeLoop_sum φ sp sch hP l.length l le_rfl s 0
      (if stolen then sch.threads path else b) path hprod
    refine ⟨f0 + 1, ?_⟩
    rw [bridgeAux_budget_pos sp (sumOps M φ) sch f0 path stolen ⟨s, b⟩ () hz]
    have hps : (if stolen then ({ iter := s, splits := sch.threads path } : ParSpliter S)
        else ⟨s, b⟩) = ⟨s, if stolen then sch.threads path else b⟩ := by
      cases stolen <;> rfl
    rw [hps]
    show bridgeLoop sp (sumOps M φ) sch f0 path _ (0 : M) () = _
    rw [hf0]
    show some (0 + (l.map φ).sum) = _
    rw [zero_add]

/-- Any result bridge can return with the aggregation consumer is the
sequential aggregate: soundness at every fuel value. -/
theorem bridgeAux_sum_sound {M : Type} [AddCommMonoid M] (φ : I → M) (sp : Spliter S I)
    (sch : Sched) (hP : Partitions sp) {s : S} {l : List I}
    (hprod : Produces sp.next s l) (b : Nat) (stolen : Bool) (path : List Bool)
    {f : Nat} {r : M}
    (h : bridgeAux sp (sumOps M φ) sch f path stolen ⟨s, b⟩ () = some r) :
    r = (l.map φ).sum := by
  obtain ⟨f2, hf2⟩ := bridgeAux_sum φ sp sch hP hprod b stolen path
  have h1 := bridgeAux_mono_le sp (sumOps M φ) sch (Nat.le_max_left f f2) h
  have h2 := bridgeAux_mono_le sp (sumOps M φ) sch (Nat.le_max_right f f2) hf2
  rw [h1] at h2
  exact Option.some_inj.mp h2

/-- The pop-and-push-children stack machine shared by the AllNumbers test
iterator and the DepthFirstSearch example: the Rust Vec used as a stack is
modelled top-first (list head = top of stack = end of the Vec).  A step
pops the top node, pushes its children in order (so the last child ends up
on top, hence the reverse here), and yields the popped node's output. -/
def stackNext (children : α → List α) (out : α → β) : List α → Option (β × List α)
  | [] => none
  | x :: rest => some (out x, (children x).reverse ++ rest)

theorem stackNext_concat (children : α → List α) (out : α → β) :
    ∀ (f : Nat) (a b : List α) (l : List β),
      seqListF (stackNext children out) f (a ++ b) = some l →
      ∃ la lb, l = la ++ lb ∧ Produces (stackNext children out) a la ∧
        Produces (stackNext children out) b lb := by
  intro f
  induction f with
  | zero =>
    intro a b l hf
    cases a with
    | nil =>
      refine ⟨[], l, rfl, ⟨0, rfl⟩, ⟨0, ?_⟩⟩
      simpa using hf
    | cons x ra => simp [seqListF, stackNext] at hf
  | succ f ih =>
    intro a b l hf
    cases a with
    | nil =>
      refine ⟨[], l, rfl, ⟨0, rfl⟩, ⟨f + 1, ?_⟩⟩
      simpa using hf
    | cons x ra =>
      have hstep : stackNext children out ((x :: ra) ++ b) =
          some (out x, ((children x).reverse ++ ra) ++ b) := by
        simp [stackNext]
      rw [show ((x :: ra) ++ b) = x :: (ra ++ b) from rfl] at hf
      simp only [seqListF, stackNext, Option.map_eq_some'] at hf
      obtain ⟨l2, hl2, rfl⟩ := hf
      rw [show (children x).reverse ++ (ra ++ b) = ((children x).reverse ++ ra) ++ b by
        simp] at hl2
      obtain ⟨la2, lb, rfl, ⟨fa, hfa⟩, hb⟩ := ih ((children x).reverse ++ ra) b l2 hl2
      refine ⟨out x :: la2, lb, rfl, ⟨fa + 1, ?_⟩, hb⟩
      simp [seqListF, stackNext, hfa]

theorem stackNext_cons_produces_ne_nil {children : α → List α} {out : α → β}
    {x : α} {r : List α} {l : List β}
    (h : Produces (stackNext children out) (x :: r) l) : l ≠ [] := by
  have hn : stackNext children out (x :: r) = some (out x, (children x).reverse ++ r) := rfl
  exact Produces_ne_nil hn h

namespace AllNumbers

/-- Children pushed by AllNumbers::next after popping n: 2n and 2n+1 while
n is below 1 << 15, nothing otherwise (pushed in this order, so 2n+1 ends
on top). -/
def children (n : Nat) : List Nat := if n < 2 ^ 15 then [2 * n, 2 * n + 1] else []

/-- AllNumbers::next: pop the top of the stack, push the popped value's
children, and yield it. -/
def next : List Nat → Option (Nat × List Nat) := stackNext children id

/-- AllNumbers::split: when the stack holds at least two entries,
Vec::split_off(len / 2) keeps the bottom len / 2 entries in the receiver
and moves the top part into the returned new iterator.  Top-first, the
retained receiver is the last len / 2 entries (drop) and the new half is
the first len - len / 2 entries (take). -/
def split (st : List Nat) : Option (List Nat × List Nat) :=
  if 2 ≤ st.length then
    some (st.drop (st.length - st.length / 2), st.take (st.length - st.length / 2))
  else none

/-- AllNumbers::new: the stack starts as vec![1]. -/
def new : List Nat := [1]

/-- The AllNumbers Spliterator (its Iterator::next and Spliterator::split). -/
def spliter : Spliter (List Nat) Nat := { next := next, split := split }

/-- The number of items eventually produced by the orbit of a single
positive stack entry n: its subtree of the infinite binary tree rooted at
1, cut off below 1 << 15. -/
def size (n : Nat) : Nat :=
  if h : 0 < n ∧ n < 2 ^ 15 then 1 + size (2 * n) + size (2 * n + 1) else 1
termination_by 2 ^ 16 - n
decreasing_by
  · omega
  · omega

theorem size_pos (n : Nat) : 0 < size n := by
  rw [size]
  split <;> omega

theorem size_formula : ∀ d n : Nat, 2 ^ (15 - d) ≤ n → n < 2 ^ (16 - d) →
    size n = 2 ^ (d + 1) - 1 := by
  intro d
  induction d with
  | zero =>
    intro n hlo hhi
    simp only [Nat.sub_zero] at hlo
    rw [size, dif_neg]
    · norm_num
    · push_neg
      intro
      omega
  | succ d ih =>
    intro n hlo hhi
    by_cases hd : d ≤ 14
    · have e1 : 15 - (d + 1) = 14 - d := by omega
      have e2 : 16 - (d + 1) = 15 - d := by omega
      have e3 : 15 - d = (14 - d) + 1 := by omega
      have e4 : 16 - d = (15 - d) + 1 := by omega
      rw [e1] at hlo
      rw [e2] at hhi
      have hn1 : 0 < n := lt_of_lt_of_le (pow_pos (by norm_num) (14 - d)) hlo
      have hn2 : n < 2 ^ 15 :=
        lt_of_lt_of_le hhi (Nat.pow_le_pow_right (by norm_num) (by omega))
      rw [size, dif_pos (And.intro hn1 hn2)]
      have hone : 2 ^ (15 - d) ≤ 2 * n := by
        rw [e3, pow_succ]
        omega
      have htwo : 2 * n < 2 ^ (16 - d) := by
        rw [e4, pow_succ]
        omega
      have hthree : 2 ^ (15 - d) ≤ 2 * n + 1 := by omega
      have hfour : 2 * n + 1 < 2 ^ (16 - d) := by
        rw [e4, pow_succ]
        omega
      rw [ih (2 * n) hone htwo, ih (2 * n + 1) hthree hfour]
      have hp : 0 < 2 ^ (d + 1) := pow_pos (by norm_num) (d + 1)
      rw [pow_succ]
      omega
    · exfalso
      have e1 : 15 - (d + 1) = 0 := by omega
      have e2 : 16 - (d + 1) = 0 := by omega
      rw [e1] at hlo
      rw [e2] at hhi
      simp at hlo hhi
      omega

theorem size_one : size 1 = 2 ^ 16 - 1 := by
  have h := size_formula 15 1 (by norm_num) (by norm_num)
  simpa using h

end AllNumbers

namespace AllNumbers

theorem size_eq_children (n : Nat) (hn : 0 < n) :
    size n = 1 + ((children n).map size).sum := by
  by_cases h : n < 2 ^ 15
  · rw [size, dif_pos (And.intro hn h)]
    unfold children
    rw [if_pos h]
    simp only [List.map_cons, List.map_nil, List.sum_cons, List.sum_nil]
    omega
  · rw [size, dif_neg (by push_neg; intro; omega)]
    unfold children
    rw [if_neg h]
    simp

theorem run_length : ∀ k : Nat, ∀ st : List Nat, (∀ x ∈ st, 0 < x) →
    (st.map size).sum ≤ k →
    ∃ l, seqListF next k st = some l ∧ l.length = (st.map size).sum := by
  intro k
  induction k with
  | zero =>
    intro st hpos hsum
    cases st with
    | nil => exact ⟨[], rfl, rfl⟩
    | cons n rest =>
      exfalso
      have h1 := size_pos n
      simp only [List.map_cons, List.sum_cons] at hsum
      omega
  | succ k ih =>
    intro st hpos hsum
    cases st with
    | nil => exact ⟨[], rfl, rfl⟩
    | cons n rest =>
      have hn0 : 0 < n := hpos n (by simp)
      have hstep : next (n :: rest) = some (n, (children n).reverse ++ rest) := rfl
      have hpos1 : ∀ x ∈ (children n).reverse ++ rest, 0 < x := by
        intro x hx
        rcases List.mem_append.mp hx with hx1 | hx2
        · rw [List.mem_reverse] at hx1
          unfold children at hx1
          split_ifs at hx1
          · simp at hx1
            omega
          · simp at hx1
        · exact hpos x (by simp [hx2])
      have hsum1 : ((n :: rest).map size).sum =
          1 + ((((children n).reverse ++ rest).map size).sum) := by
        simp only [List.map_cons, List.sum_cons, List.map_append, List.sum_append,
          List.map_reverse, List.sum_reverse]
        rw [size_eq_children n hn0]
        omega
      have hsum2 : ((((children n).reverse ++ rest).map size).sum) ≤ k := by omega
      obtain ⟨l1, hl1, hlen1⟩ := ih ((children n).reverse ++ rest) hpos1 hsum2
      refine ⟨n :: l1, ?_, ?_⟩
      · show (match next (n :: rest) with
          | none => some []
          | some (x, s1) => (seqListF next k s1).map (fun l => x :: l)) = some (n :: l1)
        rw [hstep]
        simp [hl1]
      · simp only [List.length_cons, hlen1, hsum1]
        omega

theorem sum_singleton_nat (m : Nat) : ([m] : List Nat).sum = m := by simp

theorem map_size_new : [1].map size = [size 1] := by
  rw [List.map_cons, List.map_nil]

/-- Sequentially consuming AllNumbers from its initial stack [1] produces
exactly 2 ^ 16 - 1 items. -/
theorem seq_count : ∃ l : List Nat, Produces next new l ∧ l.length = 2 ^ 16 - 1 := by
  have hle : ([1].map size).sum ≤ size 1 := by
    rw [map_size_new, sum_singleton_nat]
  obtain ⟨l, hl, hlen⟩ := run_length (size 1) [1]
    (by intro x hx; simp at hx; omega) hle
  refine ⟨l, ⟨size 1, hl⟩, ?_⟩
  rw [hlen, map_size_new, sum_singleton_nat, size_one]

/-- Work conservation for AllNumbers: every successful split partitions the
items the stack would have produced into two nonempty halves. -/
theorem split_conserves : Partitions spliter := by
  intro s a b l hsplit hprod
  have hsp : split s = some (a, b) := hsplit
  unfold split at hsp
  split_ifs at hsp with hlen
  · simp only [Option.some_inj, Prod.mk.injEq] at hsp
    obtain ⟨ha, hb⟩ := hsp
    have hk1 : 1 ≤ s.length - s.length / 2 := by omega
    have hk2 : s.length - s.length / 2 < s.length := by omega
    obtain ⟨f, hf⟩ := hprod
    have hf2 : seqListF next f
        (s.take (s.length - s.length / 2) ++ s.drop (s.length - s.length / 2)) = some l := by
      rw [List.take_append_drop]
      exact hf
    obtain ⟨la, lb, rfl, hta, htb⟩ := stackNext_concat children id f
      (s.take (s.length - s.length / 2)) (s.drop (s.length - s.length / 2)) _ hf2
    have htake_pos : 0 < (s.take (s.length - s.length / 2)).length := by
      rw [List.length_take]
      omega
    have hdrop_pos : 0 < (s.drop (s.length - s.length / 2)).length := by
      rw [List.length_drop]
      omega
    have hna : la ≠ [] := by
      cases htk : s.take (s.length - s.length / 2) with
      | nil => rw [htk] at htake_pos; simp at htake_pos
      | cons x r =>
        rw [htk] at hta
        exact stackNext_cons_produces_ne_nil hta
    have hnb : lb ≠ [] := by
      cases htk : s.drop (s.length - s.length / 2) with
      | nil => rw [htk] at hdrop_pos; simp at hdrop_pos
      | cons x r =>
        rw [htk] at htb
        exact stackNext_cons_produces_ne_nil htb
    refine ⟨lb, la, ?_, ?_, hnb, hna, ?_⟩
    · rw [← ha]
      exact htb
    · rw [← hb]
      exact hta
    · show (↑lb + ↑la : Multiset Nat) = ↑(la ++ lb)
      rw [← Multiset.coe_add]
      exact Multiset.coe_eq_coe.mpr List.perm_append_comm

end AllNumbers

/-- The possible colors of a square on a Rubik's cube (examples/util/cube.rs). -/
inductive Color where
  | White
  | Orange
  | Green
  | Red
  | Yellow
  | Blue
deriving DecidableEq

/-- The six faces of a Rubik's cube. -/
inductive Face where
  | Up
  | Left
  | Front
  | Right
  | Down
  | Back
deriving DecidableEq

/-- The possible quarter- and half-turns. -/
inductive Turn where
  | Clockwise (face : Face)
  | Halfway (face : Face)
  | CounterClockwise (face : Face)
deriving DecidableEq

/-- Turn::face: the face being turned. -/
def Turn.face : Turn → Face
  | .Clockwise f => f
  | .Halfway f => f
  | .CounterClockwise f => f

/-- A 2x2x2 Rubik's cube: 24 colored squares, modelled as the list of the
Rust faces array in index order. -/
structure PocketCube where
  faces : List Color
deriving DecidableEq

namespace PocketCube

/-- God's number for pocket cubes is 11 in the half turn metric. -/
def GODS_NUMBER : Nat := 11

/-- PocketCube::solved. -/
def solved : PocketCube :=
  ⟨[.White, .White,
    .White, .White,
    .Orange, .Orange, .Green, .Green, .Red, .Red,
    .Orange, .Orange, .Green, .Green, .Red, .Red,
    .Yellow, .Yellow,
    .Yellow, .Yellow,
    .Blue, .Blue,
    .Blue, .Blue]⟩

/-- The permutation tables of PocketCube::quarter_turn, one per face. -/
def perm : Face → List Nat
  | .Up =>
    [2, 0,
     3, 1,
     6, 7, 8, 9, 23, 22,
     10, 11, 12, 13, 14, 15,
     16, 17,
     18, 19,
     20, 21,
     5, 4]
  | .Down =>
    [0, 1,
     2, 3,
     4, 5, 6, 7, 8, 9,
     21, 20, 10, 11, 12, 13,
     18, 16,
     19, 17,
     15, 14,
     22, 23]
  | .Left =>
    [20, 1,
     22, 3,
     10, 4, 0, 7, 8, 9,
     11, 5, 2, 13, 14, 15,
     6, 17,
     12, 19,
     16, 21,
     18, 23]
  | .Right =>
    [0, 7,
     2, 13,
     4, 5, 6, 17, 14, 8,
     10, 11, 12, 19, 15, 9,
     16, 21,
     18, 23,
     20, 1,
     22, 3]
  | .Front =>
    [0, 1,
     11, 5,
     4, 16, 12, 6, 2, 9,
     10, 17, 13, 7, 3, 15,
     14, 8,
     18, 19,
     20, 21,
     22, 23]
  | .Back =>
    [9, 15,
     2, 3,
     1, 5, 6, 7, 8, 19,
     0, 11, 12, 13, 14, 18,
     16, 17,
     4, 10,
     22, 20,
     23, 21]

/-- PocketCube::quarter_turn: faces[i] = self.faces[perm[i]] (the Rust
indexing is infallible; the default color stands in for the impossible
out-of-range case). -/
def quarter_turn (c : PocketCube) (face : Face) : PocketCube :=
  ⟨(perm face).map (fun j => c.faces.getD j Color.White)⟩

/-- PocketCube::turn: a clockwise quarter-turn applied once, twice, or
three times. -/
def turn (c : PocketCube) (t : Turn) : PocketCube :=
  match t with
  | .Clockwise f => c.quarter_turn f
  | .Halfway f => (c.quarter_turn f).quarter_turn f
  | .CounterClockwise f => ((c.quarter_turn f).quarter_turn f).quarter_turn f

end PocketCube

/-- A node in the graph of Rubik's cube states (examples/util/dfs.rs). -/
structure Node where
  cube : PocketCube
  depth : Nat
  last_face : Option Face
deriving DecidableEq

namespace Node

/-- Node::turn: apply a face turn and return the child node. -/
def turn (n : Node) (t : Turn) : Node :=
  { cube := n.cube.turn t, depth := n.depth + 1, last_face := some t.face }

/-- Node::children: while shallower than God's number, turn each of the
three representative faces other than the last turned face, by each of the
three turn amounts. -/
def children (n : Node) : List Node :=
  if n.depth < PocketCube.GODS_NUMBER then
    ((([Face.Up, Face.Right, Face.Back].filter
        (fun f => decide (n.last_face ≠ some f))).flatMap
      (fun f => [Turn.Clockwise f, Turn.Halfway f, Turn.CounterClockwise f])).map n.turn)
  else []

/-- Node::from(cube): the root node of a search. -/
def ofCube (c : PocketCube) : Node :=
  { cube := c, depth := 0, last_face := none }

end Node

namespace DepthFirstSearch

/-- DepthFirstSearch (Iterator::next): pop a node, push its children,
yield the popped node's cube; the Vec stack is modelled top-first. -/
def next : List Node → Option (PocketCube × List Node) :=
  stackNext Node.children Node.cube

/-- DepthFirstSearch::try_split: when at least two nodes are pending, give
away the bits from the beginning of the Vec and keep the bits from the
end.  Top-first, the receiver keeps the first len - len / 2 entries (take)
and the new instance receives the last len / 2 entries (drop). -/
def try_split (st : List Node) : Option (List Node × List Node) :=
  if 2 ≤ st.length then
    some (st.take (st.length - st.length / 2), st.drop (st.length - st.length / 2))
  else none

/-- DepthFirstSearch::new. -/
def new (c : PocketCube) : List Node := [Node.ofCube c]

/-- The DepthFirstSearch Spliterator. -/
def spliter : Spliter (List Node) PocketCube := { next := next, split := try_split }

end DepthFirstSearch

namespace DepthFirstSearch

/-- Work conservation for DepthFirstSearch: every successful try_split
partitions the cubes the traversal would have produced into two nonempty
halves. -/
theorem try_split_conserves : Partitions spliter := by
  intro s a b l hsplit hprod
  have hsp : try_split s = some (a, b) := hsplit
  unfold try_split at hsp
  split_ifs at hsp with hlen
  · simp only [Option.some_inj, Prod.mk.injEq] at hsp
    obtain ⟨ha, hb⟩ := hsp
    have hk1 : 1 ≤ s.length - s.length / 2 := by omega
    have hk2 : s.length - s.length / 2 < s.length := by omega
    obtain ⟨f, hf⟩ := hprod
    have hf2 : seqListF next f
        (s.take (s.length - s.length / 2) ++ s.drop (s.length - s.length / 2)) = some l := by
      rw [List.take_append_drop]
      exact hf
    obtain ⟨la, lb, rfl, hta, htb⟩ := stackNext_concat Node.children Node.cube f
      (s.take (s.length - s.length / 2)) (s.drop (s.length - s.length / 2)) _ hf2
    have htake_pos : 0 < (s.take (s.length - s.length / 2)).length := by
      rw [List.length_take]
      omega
    have hdrop_pos : 0 < (s.drop (s.length - s.length / 2)).length := by
      rw [List.length_drop]
      omega
    have hna : la ≠ [] := by
      cases htk : s.take (s.length - s.length / 2) with
      | nil => rw [htk] at htake_pos; simp at htake_pos
      | cons x r =>
        rw [htk] at hta
        exact stackNext_cons_produces_ne_nil hta
    have hnb : lb ≠ [] := by
      cases htk : s.drop (s.length - s.length / 2) with
      | nil => rw [htk] at hdrop_pos; simp at hdrop_pos
      | cons x r =>
        rw [htk] at htb
        exact stackNext_cons_produces_ne_nil htb
    refine ⟨la, lb, ?_, ?_, hna, hnb, ?_⟩
    · rw [← ha]
      exact hta
    · rw [← hb]
      exact htb
    · show (↑la + ↑lb : Multiset PocketCube) = ↑(la ++ lb)
      rw [← Multiset.coe_add]

end DepthFirstSearch

/-- The counting consumer: every delivered item adds one; results are
merged by addition; it is never full.  The result counts the items
delivered to the consumer. -/
def countOps (I : Type) : ConsumerOps I Unit Nat Nat := sumOps Nat (fun _ => 1)

theorem count_sum (l : List I) : (l.map fun _ => (1 : Nat)).sum = l.length := by
  induction l with
  | nil => rfl
  | cons x t ih => simp [ih, Nat.add_comm]

/-- A consumer identical to the counting consumer except that its folder
always reports full (a bounded consumer whose budget is exhausted from the
start). -/
def fullCountOps : ConsumerOps Nat Unit Nat Nat where
  splitOffLeft := fun c => c
  toReducer := fun _ x y => x + y
  intoFolder := fun _ => 0
  consume := fun m _ => m + 1
  full := fun _ => true
  complete := fun m => m

/-- A concrete scheduler oracle used to instantiate theorems: four worker
threads, left forks never migrated, right forks always migrated. -/
def schedA : Sched where
  threads := fun _ => 4
  stolenL := fun _ => false
  stolenR := fun _ => true

/-- A second concrete Spliterator over the same state type as AllNumbers,
used to exhibit that a zero split budget never consults the underlying
split at all. -/
def noSplitSp : Spliter (List Nat) Nat :=
  { next := AllNumbers.next, split := fun _ => none }

theorem ParSpliter_split_zero (sp : Spliter S I) (s : S) :
    ParSpliter.split sp ⟨s, 0⟩ = none := by
  unfold ParSpliter.split
  simp

theorem consumeIter_to_loop0 (sp : Spliter S I) (ops : ConsumerOps I C F R) (sch : Sched)
    (path : List Bool) (c : C) :
    ∀ (f : Nat) (m : F) (s : S) (r : F), ops.full m = false →
      consumeIterF sp ops f m s = some r →
      ∃ g, bridgeLoop sp ops sch g path ⟨s, 0⟩ m c = some (ops.complete r) := by
  intro f
  induction f with
  | zero =>
    intro m s r hnf h
    simp [consumeIterF] at h
  | succ f ih =>
    intro m s r hnf h
    rw [consumeIterF_succ] at h
    cases hn : sp.next s with
    | none =>
      rw [hn] at h
      obtain rfl : m = r := Option.some_inj.mp h
      refine ⟨1, ?_⟩
      exact bridgeLoop_exhaust sp ops sch 0 path ⟨s, 0⟩ m c hnf (ParSpliter_split_zero sp s) hn
    | some q =>
      obtain ⟨x, s1⟩ := q
      rw [hn] at h
      simp only at h
      cases hf1 : ops.full (ops.consume m x) with
      | true =>
        rw [if_pos hf1] at h
        obtain rfl : ops.consume m x = r := Option.some_inj.mp h
        refine ⟨2, ?_⟩
        rw [bridgeLoop_consume sp ops sch 1 path ⟨s, 0⟩ m c x s1 hnf
          (ParSpliter_split_zero sp s) hn]
        exact bridgeLoop_full sp ops sch 0 path ⟨s1, 0⟩ (ops.consume m x) c hf1
      | false =>
        rw [if_neg (by simp [hf1])] at h
        obtain ⟨g, hg⟩ := ih (ops.consume m x) s1 r hf1 h
        refine ⟨g + 1, ?_⟩
        rw [bridgeLoop_consume sp ops sch g path ⟨s, 0⟩ m c x s1 hnf
          (ParSpliter_split_zero sp s) hn]
        exact hg

theorem loop0_to_consumeIter (sp : Spliter S I) (ops : ConsumerOps I C F R) (sch : Sched)
    (path : List Bool) (c : C) :
    ∀ (g : Nat) (m : F) (s : S) (r : R), ops.full m = false →
      bridgeLoop sp ops sch g path ⟨s, 0⟩ m c = some r →
      ∃ f m2, consumeIterF sp ops f m s = some m2 ∧ r = ops.complete m2 := by
  intro g
  induction g with
  | zero =>
    intro m s r hnf h
    simp [bridgeLoop] at h
  | succ g ih =>
    intro m s r hnf h
    cases hn : sp.next s with
    | none =>
      rw [bridgeLoop_exhaust sp ops sch g path ⟨s, 0⟩ m c hnf
        (ParSpliter_split_zero sp s) hn] at h
      refine ⟨1, m, ?_, (Option.some_inj.mp h).symm⟩
      rw [consumeIterF_succ, hn]
    | some q =>
      obtain ⟨x, s1⟩ := q
      rw [bridgeLoop_consume sp ops sch g path ⟨s, 0⟩ m c x s1 hnf
        (ParSpliter_split_zero sp s) hn] at h
      cases hf1 : ops.full (ops.consume m x) with
      | true =>
        cases g with
        | zero => simp [bridgeLoop] at h
        | succ g2 =>
          rw [bridgeLoop_full sp ops sch g2 path _ (ops.consume m x) c hf1] at h
          refine ⟨1, ops.consume m x, ?_, (Option.some_inj.mp h).symm⟩
          rw [consumeIterF_succ, hn]
          simp [hf1]
      | false =>
        obtain ⟨f, m2, hm2, hr⟩ := ih (ops.consume m x) s1 r hf1 h
        refine ⟨f + 1, m2, ?_, hr⟩
        rw [consumeIterF_succ, hn]
        simp only [hf1, Bool.false_eq_true, if_false]
        exact hm2

/-- A concrete node sitting at depth 11 (God's number), so that its
children list is empty and searches over it are tiny. -/
def nodeA : Node := { cube := PocketCube.solved, depth := 11, last_face := none }

/-- A second concrete scheduler oracle: a single worker and the opposite
migration flags of schedA. -/
def schedB : Sched where
  threads := fun _ => 1
  stolenL := fun _ => true
  stolenR := fun _ => false

/-- C1: for every finite Splittable Sequence satisfying the
work-conservation invariant (every successful split partitions the
remaining items into two nonempty halves), the number of items delivered
to the consumer by the parallel bridge (drive_unindexed with the counting
consumer), under any scheduler oracle for stolen flags and thread counts,
equals the number of items produced by consuming the sequence sequentially
with next until exhaustion, for any worker count including one. -/
theorem c1_count_equivalence (S I : Type) (sp : Spliter S I) (hP : Partitions sp)
    (s : S) (l : List I) (hseq : Produces sp.next s l) (sch : Sched) (numThreads : Nat) :
    ∃ f, driveUnindexed sp (countOps I) sch numThreads f s () = some l.length := by
  obtain ⟨f, hf⟩ := bridgeAux_sum (fun _ => (1 : Nat)) sp sch hP hseq numThreads false []
  rw [count_sum] at hf
  exact ⟨f, hf⟩

/-- Witness for C1: the AllNumbers Spliterator started from the stack
[32768] delivers exactly its one sequential item through the bridge. -/
theorem c1_count_equivalence_witness :
    ∃ f, driveUnindexed AllNumbers.spliter (countOps Nat) schedA 4 f [32768] () =
      some 1 := by
  have h := c1_count_equivalence (List Nat) Nat AllNumbers.spliter AllNumbers.split_conserves
    [32768] [32768] ⟨1, by decide⟩ schedA 4
  simpa using h

/-- C2: whenever the bridge loop performs a successful split, it forks the
retained half with the left sub-consumer and the split-off half with the
remaining consumer, finalizes the items the current Folder consumed before
the split, and returns reducerA.combine(priorPartial,
reducerB.combine(leftResult, rightResult)) without any further loop
iterations. -/
theorem c2_split_combine (S I C F R : Type) (sp : Spliter S I) (ops : ConsumerOps I C F R)
    (sch : Sched) (fuel : Nat) (path : List Bool) (p pL pR : ParSpliter S) (folder : F)
    (c : C) (left right : R)
    (hfull : ops.full folder = false)
    (hsplit : ParSpliter.split sp p = some (pL, pR))
    (hL : bridgeAux sp ops sch fuel (false :: path) (sch.stolenL path) pL
      (ops.splitOffLeft c) = some left)
    (hR : bridgeAux sp ops sch fuel (true :: path) (sch.stolenR path) pR c = some right) :
    bridgeLoop sp ops sch (fuel + 1) path p folder c =
      some (ops.toReducer c (ops.complete folder) (ops.toReducer c left right)) := by
  rw [bridgeLoop_split sp ops sch fuel path p pL pR folder c hfull hsplit, hL, hR]

/-- Witness for C2 at a concrete AllNumbers split with the counting
consumer. -/
theorem c2_split_combine_witness :
    (countOps Nat).full 0 = false ∧
    ParSpliter.split AllNumbers.spliter ⟨[32768, 32769], 2⟩ =
      some (⟨[32769], 1⟩, ⟨[32768], 1⟩) ∧
    bridgeAux AllNumbers.spliter (countOps Nat) schedA 4 [false] (schedA.stolenL [])
      ⟨[32769], 1⟩ ((countOps Nat).splitOffLeft ()) = some 1 ∧
    bridgeAux AllNumbers.spliter (countOps Nat) schedA 4 [true] (schedA.stolenR [])
      ⟨[32768], 1⟩ () = some 1 ∧
    bridgeLoop AllNumbers.spliter (countOps Nat) schedA 5 [] ⟨[32768, 32769], 2⟩ 0 () =
      some ((countOps Nat).toReducer () ((countOps Nat).complete 0)
        ((countOps Nat).toReducer () 1 1)) := by
  refine ⟨rfl, by decide, by decide, by decide, ?_⟩
  exact c2_split_combine (List Nat) Nat Unit Nat Nat AllNumbers.spliter (countOps Nat)
    schedA 4 [] ⟨[32768, 32769], 2⟩ ⟨[32769], 1⟩ ⟨[32768], 1⟩ 0 () 1 1
    rfl (by decide) (by decide) (by decide)

/-- C3: the split budget is the worker count at construction; a successful
split halves it, both halves carrying the same halved value; a failed
split attempt leaves the budget unchanged in the continuing loop state; a
bridge invocation whose stolen flag is true resets the budget to the
current worker count before anything else; and a zero budget skips the
split attempt entirely (the underlying Spliterator is not even
consulted). -/
theorem c3_split_budget (S I C F R : Type) (sp sp2 : Spliter S I)
    (ops : ConsumerOps I C F R) (sch : Sched) :
    (∀ (numThreads : Nat) (it : S), (ParSpliter.new numThreads it).splits = numThreads) ∧
    (∀ p q r : ParSpliter S, ParSpliter.split sp p = some (q, r) →
      q.splits = p.splits / 2 ∧ r.splits = p.splits / 2) ∧
    (∀ (fuel : Nat) (path : List Bool) (p : ParSpliter S) (folder : F) (c : C) (x : I)
      (it : S), ops.full folder = false → ParSpliter.split sp p = none →
      sp.next p.iter = some (x, it) →
      bridgeLoop sp ops sch (fuel + 1) path p folder c =
        bridgeLoop sp ops sch fuel path ⟨it, p.splits⟩ (ops.consume folder x) c) ∧
    (∀ (fuel : Nat) (path : List Bool) (p : ParSpliter S) (c : C),
      bridgeAux sp ops sch (fuel + 1) path true p c =
        bridgeAux sp ops sch (fuel + 1) path false ⟨p.iter, sch.threads path⟩ c) ∧
    (∀ p : ParSpliter S, p.splits = 0 →
      ParSpliter.split sp p = none ∧ ParSpliter.split sp p = ParSpliter.split sp2 p) := by
  refine ⟨fun numThreads it => rfl, ?_, ?_, ?_, ?_⟩
  · intro p q r h
    obtain ⟨-, -, hq, hr⟩ := ParSpliter_split_some h
    exact ⟨hq, hr⟩
  · intro fuel path p folder c x it hfull hsplit hn
    exact bridgeLoop_consume sp ops sch fuel path p folder c x it hfull hsplit hn
  · intro fuel path p c
    rfl
  · intro p hz
    constructor
    · unfold ParSpliter.split
      rw [if_pos hz]
    · unfold ParSpliter.split
      rw [if_pos hz, if_pos hz]

/-- Witness for C3: each budget rule at a concrete AllNumbers instance. -/
theorem c3_split_budget_witness :
    (ParSpliter.new 8 AllNumbers.new).splits = 8 ∧
    ((⟨[32769], 2⟩ : ParSpliter (List Nat)).splits = 5 / 2 ∧
      (⟨[32768], 2⟩ : ParSpliter (List Nat)).splits = 5 / 2) ∧
    bridgeLoop AllNumbers.spliter (countOps Nat) schedA 4 [] ⟨[32769], 3⟩ 0 () =
      bridgeLoop AllNumbers.spliter (countOps Nat) schedA 3 []
        ⟨[], (⟨[32769], 3⟩ : ParSpliter (List Nat)).splits⟩ ((countOps Nat).consume 0 32769) () ∧
    bridgeAux AllNumbers.spliter (countOps Nat) schedA 4 [] true ⟨[32768], 7⟩ () =
      bridgeAux AllNumbers.spliter (countOps Nat) schedA 4 [] false
        ⟨[32768], schedA.threads []⟩ () ∧
    (ParSpliter.split AllNumbers.spliter ⟨[32768, 32769], 0⟩ = none ∧
      ParSpliter.split AllNumbers.spliter ⟨[32768, 32769], 0⟩ =
        ParSpliter.split noSplitSp ⟨[32768, 32769], 0⟩) := by
  have h := c3_split_budget (List Nat) Nat Unit Nat Nat AllNumbers.spliter noSplitSp
    (countOps Nat) schedA
  refine ⟨h.1 8 AllNumbers.new, ?_, ?_, h.2.2.2.1 3 [] ⟨[32768], 7⟩ (), h.2.2.2.2 ⟨[32768, 32769], 0⟩ rfl⟩
  · exact h.2.1 ⟨[32768, 32769], 5⟩ ⟨[32769], 2⟩ ⟨[32768], 2⟩ (by decide)
  · exact h.2.2.1 3 [] ⟨[32769], 3⟩ 0 () 32769 [] rfl (by decide) (by decide)

/-- C7: for every Splittable Sequence with a finite sequential run, the
bridge terminates (some fuel suffices) under any scheduler oracle, budget,
stolen flag, and fork path, and yields the same total count as the
sequential run, including for sequences whose next pushes more pending
items than existed at the most recent split. -/
theorem c7_termination (S I : Type) (sp : Spliter S I) (hP : Partitions sp)
    (s : S) (l : List I) (hseq : Produces sp.next s l) (sch : Sched) (b : Nat)
    (stolen : Bool) (path : List Bool) :
    ∃ f r, bridgeAux sp (countOps I) sch f path stolen ⟨s, b⟩ () = some r ∧
      r = l.length := by
  obtain ⟨f, hf⟩ := bridgeAux_sum (fun _ => (1 : Nat)) sp sch hP hseq b stolen path
  rw [count_sum] at hf
  exact ⟨f, l.length, hf, rfl⟩

/-- Witness for C7 at the growing stack [16384], whose first step pushes
two pending items where one existed. -/
theorem c7_termination_witness :
    ∃ f r, bridgeAux AllNumbers.spliter (countOps Nat) schedA f [] true ⟨[16384], 2⟩ () =
      some r ∧ r = 3 := by
  have h := c7_termination (List Nat) Nat AllNumbers.spliter AllNumbers.split_conserves
    [16384] [16384, 32769, 32768] ⟨3, by decide⟩ schedA 2 true []
  simpa using h

/-- C9: for every commutative-monoid aggregation and every finite
work-conserving Splittable Sequence, any two results the bridge returns
are identical, regardless of scheduler oracles, stolen flags, fork paths,
budgets, worker counts, and fuel. -/
theorem c9_determinism (S I M : Type) [AddCommMonoid M] (φ : I → M) (sp : Spliter S I)
    (hP : Partitions sp) (s : S) (l : List I) (hseq : Produces sp.next s l)
    (sch1 sch2 : Sched) (b1 b2 : Nat) (st1 st2 : Bool) (p1 p2 : List Bool)
    (f1 f2 : Nat) (r1 r2 : M)
    (h1 : bridgeAux sp (sumOps M φ) sch1 f1 p1 st1 ⟨s, b1⟩ () = some r1)
    (h2 : bridgeAux sp (sumOps M φ) sch2 f2 p2 st2 ⟨s, b2⟩ () = some r2) :
    r1 = r2 := by
  rw [bridgeAux_sum_sound φ sp sch1 hP hseq b1 st1 p1 h1,
    bridgeAux_sum_sound φ sp sch2 hP hseq b2 st2 p2 h2]

/-- Witness for C9: summing the items of the stack [32768, 32769] under
two different scheduler oracles and budgets gives the same result. -/
theorem c9_determinism_witness :
    bridgeAux AllNumbers.spliter (sumOps Nat id) schedA 5 [] false ⟨[32768, 32769], 2⟩ () =
      some 65537 ∧
    bridgeAux AllNumbers.spliter (sumOps Nat id) schedB 5 [] false ⟨[32768, 32769], 0⟩ () =
      some 65537 ∧
    (65537 : Nat) = 65537 := by
  refine ⟨by decide, by decide, ?_⟩
  exact c9_determinism (List Nat) Nat Nat id AllNumbers.spliter AllNumbers.split_conserves
    [32768, 32769] [32768, 32769] ⟨2, by decide⟩ schedA schedB 2 0 false false [] []
    5 5 65537 65537 (by decide) (by decide)

/-- C4: the stack-based sequence starting from [1] whose next pops n and
pushes 2n and 2n+1 whenever n is below 1 << 15 produces exactly 2 ^ 16 - 1
items sequentially, and parallel consumption through par_split /
drive_unindexed with the counting consumer also yields 2 ^ 16 - 1, for
worker counts 1, 2, 4, and 8 under any scheduler oracle. -/
theorem c4_allnumbers_counts :
    (∃ l : List Nat, Produces AllNumbers.next AllNumbers.new l ∧ l.length = 2 ^ 16 - 1) ∧
    (∀ sch : Sched,
      (∃ f, driveUnindexed AllNumbers.spliter (countOps Nat) sch 1 f AllNumbers.new () =
        some (2 ^ 16 - 1)) ∧
      (∃ f, driveUnindexed AllNumbers.spliter (countOps Nat) sch 2 f AllNumbers.new () =
        some (2 ^ 16 - 1)) ∧
      (∃ f, driveUnindexed AllNumbers.spliter (countOps Nat) sch 4 f AllNumbers.new () =
        some (2 ^ 16 - 1)) ∧
      (∃ f, driveUnindexed AllNumbers.spliter (countOps Nat) sch 8 f AllNumbers.new () =
        some (2 ^ 16 - 1))) := by
  obtain ⟨l, hl, hlen⟩ := AllNumbers.seq_count
  have key : ∀ (w : Nat) (sch : Sched), ∃ f,
      driveUnindexed AllNumbers.spliter (countOps Nat) sch w f AllNumbers.new () =
        some (2 ^ 16 - 1) := by
    intro w sch
    obtain ⟨f, hf⟩ := bridgeAux_sum (fun _ => (1 : Nat)) AllNumbers.spliter sch
      AllNumbers.split_conserves hl w false []
    rw [count_sum, hlen] at hf
    exact ⟨f, hf⟩
  exact ⟨⟨l, hl, hlen⟩, fun sch => ⟨key 1 sch, key 2 sch, key 4 sch, key 8 sch⟩⟩

/-- C6: for both stack-based splittable sequences (AllNumbers and
DepthFirstSearch), whenever a split succeeds, the multiset of items that
the pre-split state would have produced sequentially equals the union of
the multisets produced by sequentially consuming the two post-split
halves to exhaustion. -/
theorem c6_multiset_split :
    (∀ (st a b : List Nat) (l : List Nat), AllNumbers.split st = some (a, b) →
      Produces AllNumbers.next st l →
      ∃ la lb, Produces AllNumbers.next a la ∧ Produces AllNumbers.next b lb ∧
        (la : Multiset Nat) + (lb : Multiset Nat) = (l : Multiset Nat)) ∧
    (∀ (st a b : List Node) (l : List PocketCube),
      DepthFirstSearch.try_split st = some (a, b) →
      Produces DepthFirstSearch.next st l →
      ∃ la lb, Produces DepthFirstSearch.next a la ∧ Produces DepthFirstSearch.next b lb ∧
        (la : Multiset PocketCube) + (lb : Multiset PocketCube) =
          (l : Multiset PocketCube)) := by
  constructor
  · intro st a b l hs hp
    obtain ⟨la, lb, h1, h2, -, -, h5⟩ := AllNumbers.split_conserves st a b l hs hp
    exact ⟨la, lb, h1, h2, h5⟩
  · intro st a b l hs hp
    obtain ⟨la, lb, h1, h2, -, -, h5⟩ := DepthFirstSearch.try_split_conserves st a b l hs hp
    exact ⟨la, lb, h1, h2, h5⟩

/-- Witness for C6 at concrete two-entry stacks of each sequence. -/
theorem c6_multiset_split_witness :
    (∃ la lb, Produces AllNumbers.next [32769] la ∧ Produces AllNumbers.next [32768] lb ∧
      (la : Multiset Nat) + (lb : Multiset Nat) = (([32768, 32769] : List Nat) : Multiset Nat)) ∧
    (∃ la lb, Produces DepthFirstSearch.next [nodeA] la ∧
      Produces DepthFirstSearch.next [nodeA] lb ∧
      (la : Multiset PocketCube) + (lb : Multiset PocketCube) =
        (([PocketCube.solved, PocketCube.solved] : List PocketCube) :
          Multiset PocketCube)) := by
  constructor
  · exact c6_multiset_split.1 [32768, 32769] [32769] [32768] [32768, 32769]
      (by decide) ⟨2, by decide⟩
  · exact c6_multiset_split.2 [nodeA, nodeA] [nodeA] [nodeA]
      [PocketCube.solved, PocketCube.solved] (by decide) ⟨2, by decide⟩

/-- C8: for both stack-based splittable sequences, split / try_split
reports no split exactly when fewer than two pending stack entries remain,
and every successful split yields two nonempty halves. -/
theorem c8_split_policy :
    (∀ st : List Nat, (AllNumbers.split st = none ↔ st.length < 2) ∧
      ∀ a b, AllNumbers.split st = some (a, b) → a ≠ [] ∧ b ≠ []) ∧
    (∀ st : List Node, (DepthFirstSearch.try_split st = none ↔ st.length < 2) ∧
      ∀ a b, DepthFirstSearch.try_split st = some (a, b) → a ≠ [] ∧ b ≠ []) := by
  constructor
  · intro st
    constructor
    · unfold AllNumbers.split
      split_ifs with h
      · constructor
        · intro hc
          exact absurd hc (by simp)
        · intro hc
          omega
      · constructor
        · intro _
          omega
        · intro _
          rfl
    · intro a b hab
      unfold AllNumbers.split at hab
      split_ifs at hab with h
      · simp only [Option.some_inj, Prod.mk.injEq] at hab
        obtain ⟨ha, hb⟩ := hab
        constructor
        · rw [← ha]
          have hpos : 0 < (st.drop (st.length - st.length / 2)).length := by
            rw [List.length_drop]
            omega
          exact List.length_pos.mp hpos
        · rw [← hb]
          have hpos : 0 < (st.take (st.length - st.length / 2)).length := by
            rw [List.length_take]
            omega
          exact List.length_pos.mp hpos
  · intro st
    constructor
    · unfold DepthFirstSearch.try_split
      split_ifs with h
      · constructor
        · intro hc
          exact absurd hc (by simp)
        · intro hc
          omega
      · constructor
        · intro _
          omega
        · intro _
          rfl
    · intro a b hab
      unfold DepthFirstSearch.try_split at hab
      split_ifs at hab with h
      · simp only [Option.some_inj, Prod.mk.injEq] at hab
        obtain ⟨ha, hb⟩ := hab
        constructor
        · rw [← ha]
          have hpos : 0 < (st.take (st.length - st.length / 2)).length := by
            rw [List.length_take]
            omega
          exact List.length_pos.mp hpos
        · rw [← hb]
          have hpos : 0 < (st.drop (st.length - st.length / 2)).length := by
            rw [List.length_drop]
            omega
          exact List.length_pos.mp hpos

/-- Witness for C8 at concrete stacks of each sequence. -/
theorem c8_split_policy_witness :
    AllNumbers.split [5] = none ∧
    (([7] : List Nat) ≠ [] ∧ ([6] : List Nat) ≠ []) ∧
    DepthFirstSearch.try_split [nodeA] = none ∧
    (([nodeA] : List Node) ≠ [] ∧ ([nodeA] : List Node) ≠ []) := by
  refine ⟨(c8_split_policy.1 [5]).1.mpr (by decide),
    (c8_split_policy.1 [6, 7]).2 [7] [6] (by decide),
    (c8_split_policy.2 [nodeA]).1.mpr (by decide),
    (c8_split_policy.2 [nodeA, nodeA]).2 [nodeA] [nodeA] (by decide)⟩

/-- C5 as stated is refuted by the zero-budget fast path: the Folder
derived at bridge entry already reports full, yet bridge pulls and
consumes one item through consume_iter (which checks fullness only after
each consume) and returns some 1 instead of the finalized result
complete(0) = 0 of the full Folder. -/
theorem c5_counterexample :
    fullCountOps.full (fullCountOps.intoFolder (fullCountOps.splitOffLeft ())) = true ∧
    bridgeAux AllNumbers.spliter fullCountOps schedA 5 [] false ⟨[32768], 0⟩ () = some 1 ∧
    some 1 ≠
      some (fullCountOps.complete (fullCountOps.intoFolder (fullCountOps.splitOffLeft ()))) := by
  refine ⟨rfl, by decide, by decide⟩

/-- C5 amended: in the main splitting loop, fullness is checked before
every split attempt and every pull, and from the moment the Folder reports
full the loop performs no further pull or split and returns the finalized
result; in the zero-budget fast path, fullness is checked only after each
consumed item, so (for monotone fullness) a Folder already full at entry
still receives exactly one item when the iterator is nonempty. -/
theorem c5_full_stops (S I C F R : Type) (sp : Spliter S I) (ops : ConsumerOps I C F R)
    (sch : Sched) :
    (∀ (fuel : Nat) (path : List Bool) (p : ParSpliter S) (folder : F) (c : C),
      ops.full folder = true →
      bridgeLoop sp ops sch (fuel + 1) path p folder c = some (ops.complete folder)) ∧
    (∀ (f : Nat) (m : F) (s : S),
      (∀ (m2 : F) (x : I), ops.full m2 = true → ops.full (ops.consume m2 x) = true) →
      ops.full m = true →
      consumeIterF sp ops (f + 1) m s =
        (match sp.next s with
         | none => some m
         | some (x, _) => some (ops.consume m x))) := by
  constructor
  · intro fuel path p folder c h
    exact bridgeLoop_full sp ops sch fuel path p folder c h
  · intro f m s hmono hm
    rw [consumeIterF_succ]
    cases hn : sp.next s with
    | none => rfl
    | some q =>
      obtain ⟨x, s1⟩ := q
      simp [hmono m x hm]

/-- Witness for the amended C5 with the always-full counting consumer. -/
theorem c5_full_stops_witness :
    bridgeLoop AllNumbers.spliter fullCountOps schedA 4 [] ⟨[32768], 3⟩ 0 () =
      some (fullCountOps.complete 0) ∧
    consumeIterF AllNumbers.spliter fullCountOps 3 0 [32768] =
      (match AllNumbers.spliter.next [32768] with
       | none => some (0 : Nat)
       | some (x, _) => some (fullCountOps.consume 0 x)) := by
  constructor
  · exact (c5_full_stops (List Nat) Nat Unit Nat Nat AllNumbers.spliter fullCountOps
      schedA).1 3 [] ⟨[32768], 3⟩ 0 () rfl
  · exact (c5_full_stops (List Nat) Nat Unit Nat Nat AllNumbers.spliter fullCountOps
      schedA).2 2 0 [32768] (fun m2 x _ => rfl) rfl

/-- C10 as stated is refuted when the freshly derived Folder is already
full: the fast path feeds one item into the Folder (consume_iter checks
fullness only after a consume) and returns some 1, while the general loop
with budget zero checks fullness before any pull and returns some 0. -/
theorem c10_counterexample :
    bridgeAux AllNumbers.spliter fullCountOps schedA 5 [] false ⟨[32768], 0⟩ () = some 1 ∧
    bridgeLoop AllNumbers.spliter fullCountOps schedA 5 [] ⟨[32768], 0⟩
      (fullCountOps.intoFolder (fullCountOps.splitOffLeft ())) () = some 0 ∧
    (1 : Nat) ≠ 0 := by
  refine ⟨by decide, by decide, by decide⟩

/-- C10 amended: provided the Folder derived from the consumer is not
already full, the zero-budget fast path of bridge and the general loop of
bridge run with a budget of zero are result-equivalent. -/
theorem c10_fast_path_equiv (S I C F R : Type) (sp : Spliter S I)
    (ops : ConsumerOps I C F R) (sch : Sched) (path : List Bool) (c : C) (s : S) (r : R)
    (hnf : ops.full (ops.intoFolder (ops.splitOffLeft c)) = false) :
    (∃ f, bridgeAux sp ops sch f path false ⟨s, 0⟩ c = some r) ↔
    (∃ g, bridgeLoop sp ops sch g path ⟨s, 0⟩ (ops.intoFolder (ops.splitOffLeft c)) c =
      some r) := by
  constructor
  · rintro ⟨f, hf⟩
    cases f with
    | zero => simp [bridgeAux] at hf
    | succ f =>
      rw [bridgeAux_budget_zero sp ops sch f path false ⟨s, 0⟩ c rfl] at hf
      simp only [Option.map_eq_some'] at hf
      obtain ⟨m2, hm2, rfl⟩ := hf
      exact consumeIter_to_loop0 sp ops sch path c f _ s m2 hnf hm2
  · rintro ⟨g, hg⟩
    obtain ⟨f, m2, hm2, rfl⟩ := loop0_to_consumeIter sp ops sch path c g _ s r hnf hg
    refine ⟨f + 1, ?_⟩
    rw [bridgeAux_budget_zero sp ops sch f path false ⟨s, 0⟩ c rfl, hm2]
    rfl

/-- Witness for the amended C10 with the counting consumer on a one-item
stack. -/
theorem c10_fast_path_equiv_witness :
    (∃ f, bridgeAux AllNumbers.spliter (countOps Nat) schedA f [] false ⟨[32768], 0⟩ () =
      some 1) ↔
    (∃ g, bridgeLoop AllNumbers.spliter (countOps Nat) schedA g [] ⟨[32768], 0⟩
      ((countOps Nat).intoFolder ((countOps Nat).splitOffLeft ())) () = some 1) :=
  c10_fast_path_equiv (List Nat) Nat Unit Nat Nat AllNumbers.spliter (countOps Nat)
    schedA [] () [32768] 1 rfl
